import Mathlib

/-!
Verification of the `vdf-wasm` Wesolowski VDF engine (`src/vdf-wasm/src/lib.rs`).

The Rust code is shallowly embedded as executable Lean functions over `Nat`:

* `BigUint` values become `Nat`; machine integers (`u64`, `usize`) also become
  `Nat`, with range facts recorded where the surrounding code guarantees them.
* The two `rand::thread_rng` draws (`gen_biguint` and `gen_biguint_range`) are
  modelled by oracle functions supplying the raw random draws; every reachable
  behaviour of the code corresponds to some oracle, and vice versa.
  `gen_biguint_range(&lo, &hi)` returns a uniform value in the half-open range
  `[lo, hi)`; it is modelled as `lo + draw % (hi - lo)`, whose image over all
  draws is exactly that range.  `gen_biguint(bits)` returns a uniform value in
  `[0, 2^bits)`, modelled as `draw % 2^bits`.
* SHA-256 is treated as an opaque pure function `String → Nat`; theorems
  quantify over it, so they hold in particular for the real digest function.
* The base64 transport layer (`general_purpose::STANDARD`) is a bijection
  between byte sequences and their encodings, so proof fields are stored as
  the decoded byte sequences (`List Nat`) and `base64_to_biguint` acts on
  those bytes directly, keeping the code's empty-payload check.
* The JavaScript progress callback cannot influence the computation (its
  result is discarded), so `compute_proof_internal` additionally returns the
  list of percentages it reported.
* Rust `while` loops on halving/shrinking values are realised with an explicit
  structural fuel argument that provably never runs out on the loop's actual
  domain, keeping every definition kernel-reducible.
-/

namespace VDF

/-- Strict application: scrutinising the natural number forces the kernel to
reduce it to a numeral before the continuation is entered, which keeps the
loop states of the embedded imperative loops flat (Rust evaluates them
eagerly). -/
def strict (x : Nat) (k : Nat → Nat) : Nat :=
  @Nat.casesOn (fun _ => Nat) x (k 0) (fun m => k (m + 1))

theorem strict_eq (x : Nat) (k : Nat → Nat) : strict x k = k x := by
  cases x <;> rfl

/-- Fuel-driven binary modular exponentiation with an accumulator, the
embedding of `num_bigint::BigUint::modpow` (square-and-multiply on the
binary expansion of the exponent).  The fuel bounds the number of exponent
halvings.  The recursion is written with `Nat.rec` directly and the loop
state is threaded through `strict`, so that the kernel evaluates one fuel
step at a time in constant space, as the source's loop does. -/
def modPowAux : Nat → Nat → Nat → Nat → Nat → Nat :=
  @Nat.rec (fun _ => Nat → Nat → Nat → Nat → Nat)
    (fun _ _ acc n => acc % n)
    (fun _ ih b e acc n =>
      if e = 0 then acc % n
      else
        strict ((b * b) % n) (fun b2 =>
          strict (if e % 2 = 1 then (acc * b) % n else acc) (fun acc2 =>
            ih b2 (e / 2) acc2 n)))

theorem modPowAux_zero (b e acc n : Nat) : modPowAux 0 b e acc n = acc % n := rfl

theorem modPowAux_succ (f b e acc n : Nat) : modPowAux (f + 1) b e acc n =
    (if e = 0 then acc % n
     else modPowAux f ((b * b) % n) (e / 2)
       (if e % 2 = 1 then (acc * b) % n else acc) n) := by
  show (if e = 0 then acc % n
    else
      strict ((b * b) % n) (fun b2 =>
        strict (if e % 2 = 1 then (acc * b) % n else acc) (fun acc2 =>
          modPowAux f b2 (e / 2) acc2 n))) = _
  simp only [strict_eq]

/-- Embedding of `BigUint::modpow(base, exp, modulus)`: fuel `e + 1` always
suffices because the exponent at least halves at every step. -/
def modPow (b e n : Nat) : Nat := modPowAux (e + 1) b e 1 n

theorem mul_mod_left' (a x n : Nat) : (a % n) * x % n = a * x % n := by
  rw [Nat.mul_mod, Nat.mod_mod_of_dvd _ dvd_rfl, ← Nat.mul_mod]

theorem modPowAux_correct : ∀ (f e b acc n : Nat), 0 < n → e < 2 ^ f →
    modPowAux f b e acc n = acc * b ^ e % n := by
  intro f
  induction f with
  | zero =>
    intro e b acc n hn he
    interval_cases e
    rw [modPowAux_zero]
    simp
  | succ f ih =>
    intro e b acc n hn he
    rw [modPowAux_succ]
    by_cases he0 : e = 0
    · subst he0; simp
    · rw [Nat.pow_succ] at he
      have hhalf : e / 2 < 2 ^ f := by omega
      rw [if_neg he0]
      have hbb : ∀ a : Nat, a * ((b * b) % n) ^ (e / 2) % n = a * b ^ (2 * (e / 2)) % n := by
        intro a
        rw [Nat.mul_mod, ← Nat.pow_mod, ← Nat.pow_two, ← Nat.pow_mul, ← Nat.mul_mod]
      rcases Nat.mod_two_eq_zero_or_one e with hpar | hpar
      · rw [if_neg (by omega : ¬ e % 2 = 1), ih (e / 2) ((b * b) % n) acc n hn hhalf, hbb]
        have hee : 2 * (e / 2) = e := by omega
        rw [hee]
      · rw [if_pos hpar, ih (e / 2) ((b * b) % n) ((acc * b) % n) n hn hhalf, hbb]
        rw [mul_mod_left', Nat.mul_assoc]
        have hb : b * b ^ (2 * (e / 2)) = b ^ e := by
          conv_rhs => rw [show e = 2 * (e / 2) + 1 from by omega]
          rw [Nat.pow_succ]
          ring
        rw [hb]

theorem modPow_correct (b e n : Nat) (hn : 0 < n) : modPow b e n = b ^ e % n := by
  rw [modPow, modPowAux_correct (e + 1) e b 1 n hn
    (Nat.lt_of_lt_of_le (Nat.lt_two_pow e) (Nat.pow_le_pow_right (by norm_num) (by omega))),
    Nat.one_mul]

/-- Embedding of `BigUint::from_bytes_be`: interpret a byte sequence as a
big-endian base-256 integer. -/
def fromBytesBE (bs : List Nat) : Nat :=
  bs.foldl (fun acc b => acc * 256 + b) 0

/-- Fuel-driven big-endian digit extraction for `BigUint::to_bytes_be` on a
nonzero value; the fuel bounds the number of divisions by 256. -/
def toBytesBEAux : Nat → Nat → List Nat :=
  @Nat.rec (fun _ => Nat → List Nat)
    (fun _ => [])
    (fun _ ih n => if n = 0 then [] else ih (n / 256) ++ [n % 256])

theorem toBytesBEAux_zero (n : Nat) : toBytesBEAux 0 n = [] := rfl

theorem toBytesBEAux_succ (f n : Nat) : toBytesBEAux (f + 1) n =
    (if n = 0 then [] else toBytesBEAux f (n / 256) ++ [n % 256]) := rfl

/-- Embedding of `BigUint::to_bytes_be`: minimal big-endian byte encoding,
with zero encoded as the single byte `0`.  Fuel `n + 1` always suffices
because the value shrinks by a factor of 256 at each step. -/
def toBytesBE (n : Nat) : List Nat :=
  if n = 0 then [0] else toBytesBEAux (n + 1) n

theorem fromBytesBE_append_one (l : List Nat) (b : Nat) :
    fromBytesBE (l ++ [b]) = fromBytesBE l * 256 + b := by
  simp [fromBytesBE, List.foldl_append]

theorem toBytesBEAux_correct : ∀ (f n : Nat), n < 2 ^ f →
    fromBytesBE (toBytesBEAux f n) = n := by
  intro f
  induction f with
  | zero =>
    intro n hn
    interval_cases n
    rw [toBytesBEAux_zero]
    simp [fromBytesBE]
  | succ f ih =>
    intro n hn
    rw [toBytesBEAux_succ]
    by_cases h0 : n = 0
    · subst h0; simp [fromBytesBE]
    · rw [Nat.pow_succ] at hn
      have hdiv : n / 256 < 2 ^ f := by omega
      simp only [h0, if_false]
      rw [fromBytesBE_append_one, ih (n / 256) hdiv]
      omega

theorem fromBytesBE_toBytesBE (n : Nat) : fromBytesBE (toBytesBE n) = n := by
  by_cases h0 : n = 0
  · subst h0; simp [toBytesBE, fromBytesBE]
  · simp only [toBytesBE, h0, if_false]
    exact toBytesBEAux_correct (n + 1) n
      (Nat.lt_of_lt_of_le (Nat.lt_two_pow n) (Nat.pow_le_pow_right (by norm_num) (by omega)))

theorem toBytesBE_ne_nil (n : Nat) : toBytesBE n ≠ [] := by
  by_cases h0 : n = 0
  · subst h0; simp [toBytesBE]
  · simp only [toBytesBE, h0, if_false]
    cases hf : toBytesBEAux (n + 1) n with
    | nil =>
      exfalso
      have := toBytesBEAux_correct (n + 1) n
        (Nat.lt_of_lt_of_le (Nat.lt_two_pow n) (Nat.pow_le_pow_right (by norm_num) (by omega)))
      rw [hf] at this
      simp [fromBytesBE] at this
      omega
    | cons a l => simp

theorem fromBytesBE_zero_pad (k : Nat) (bs : List Nat) :
    fromBytesBE (List.replicate k 0 ++ bs) = fromBytesBE bs := by
  induction k with
  | zero => simp
  | succ k ih =>
    have : List.replicate (k + 1) 0 ++ bs = 0 :: (List.replicate k 0 ++ bs) := by
      simp [List.replicate_succ]
    rw [this]
    simpa [fromBytesBE] using ih

/-- Fuel-driven bit-length computation, the embedding of `BigUint::bits()`
(number of binary digits, with `bits(0) = 0`). -/
def bitsAux : Nat → Nat → Nat :=
  @Nat.rec (fun _ => Nat → Nat)
    (fun _ => 0)
    (fun _ ih n => if n = 0 then 0 else ih (n / 2) + 1)

theorem bitsAux_zero (n : Nat) : bitsAux 0 n = 0 := rfl

theorem bitsAux_succ (f n : Nat) : bitsAux (f + 1) n =
    (if n = 0 then 0 else bitsAux f (n / 2) + 1) := rfl

/-- Embedding of `BigUint::bits()`. -/
def bits (n : Nat) : Nat := bitsAux (n + 1) n

theorem bitsAux_le_iff : ∀ (f n : Nat), n < 2 ^ f → ∀ k, (bitsAux f n ≤ k ↔ n < 2 ^ k) := by
  intro f
  induction f with
  | zero =>
    intro n hn k
    interval_cases n
    rw [bitsAux_zero]
    simp [Nat.pos_pow_of_pos]
  | succ f ih =>
    intro n hn k
    rw [bitsAux_succ]
    by_cases h0 : n = 0
    · subst h0; simp [Nat.pos_pow_of_pos]
    · rw [Nat.pow_succ] at hn
      have hdiv : n / 2 < 2 ^ f := by omega
      simp only [h0, if_false]
      cases k with
      | zero =>
        simp only [Nat.pow_zero]
        omega
      | succ k =>
        rw [Nat.add_le_add_iff_right, ih (n / 2) hdiv k, Nat.pow_succ]
        omega

theorem bits_le_iff (n k : Nat) : bits n ≤ k ↔ n < 2 ^ k :=
  bitsAux_le_iff (n + 1) n
    (Nat.lt_of_lt_of_le (Nat.lt_two_pow n) (Nat.pow_le_pow_right (by norm_num) (by omega))) k

theorem le_bits_of_pow_le {k n : Nat} (h : 2 ^ k ≤ n) : k < bits n := by
  by_contra hc
  have := (bits_le_iff n k).mp (by omega)
  omega

/-- Fuel-driven embedding of the loop `while d.is_even() { d >>= 1; r += 1 }`
from `is_probable_prime`, returning the pair `(r, d)` with `d` the odd part.
The fuel bounds the number of halvings. -/
def splitTwos : Nat → Nat → Nat × Nat :=
  @Nat.rec (fun _ => Nat → Nat × Nat)
    (fun d => (0, d))
    (fun _ ih d =>
      if d % 2 = 0 then
        let p := ih (d / 2)
        (p.1 + 1, p.2)
      else (0, d))

theorem splitTwos_zero (d : Nat) : splitTwos 0 d = (0, d) := rfl

theorem splitTwos_succ (f d : Nat) : splitTwos (f + 1) d =
    (if d % 2 = 0 then ((splitTwos f (d / 2)).1 + 1, (splitTwos f (d / 2)).2)
     else (0, d)) := rfl

theorem splitTwos_correct : ∀ (f d : Nat), 1 ≤ d → d ≤ f →
    (splitTwos f d).2 % 2 = 1 ∧ 2 ^ (splitTwos f d).1 * (splitTwos f d).2 = d := by
  intro f
  induction f with
  | zero => intro d h1 h2; omega
  | succ f ih =>
    intro d h1 h2
    rw [splitTwos_succ]
    by_cases hev : d % 2 = 0
    · have h1' : 1 ≤ d / 2 := by omega
      have h2' : d / 2 ≤ f := by omega
      have := ih (d / 2) h1' h2'
      simp only [hev, if_true]
      refine ⟨this.1, ?_⟩
      rw [Nat.pow_succ]
      have hr : 2 ^ (splitTwos f (d / 2)).1 * 2 * (splitTwos f (d / 2)).2
          = 2 * (2 ^ (splitTwos f (d / 2)).1 * (splitTwos f (d / 2)).2) := by ring
      rw [hr, this.2]
      omega
    · simp only [hev, if_false]
      constructor
      · omega
      · simp

/-- Embedding of `rng.gen_biguint_range(&two, &(n - &two))` from the witness
loop of `is_probable_prime`: a uniform draw from the half-open range
`[2, n - 2)`, realised as `2 + draw % ((n - 2) - 2)`.  Over all raw draws the
image is exactly `{2, ..., n - 3}`. -/
def mrBase (n draw : Nat) : Nat := 2 + draw % (n - 4)

/-- Embedding of the inner squaring loop `for _ in 0..r-1 { x = x.modpow(2, n);
if x == n_minus_1 { continue witness } }`: repeatedly square `x` modulo `n`,
returning whether some iterate equals `n - 1`. -/
def squareSearch : Nat → Nat → Nat → Bool :=
  @Nat.rec (fun _ => Nat → Nat → Bool)
    (fun _ _ => false)
    (fun _ ih x n =>
      let x2 := modPow x 2 n
      if x2 = n - 1 then true else ih x2 n)

theorem squareSearch_zero (x n : Nat) : squareSearch 0 x n = false := rfl

theorem squareSearch_succ (c x n : Nat) : squareSearch (c + 1) x n =
    (if modPow x 2 n = n - 1 then true else squareSearch c (modPow x 2 n) n) := rfl

/-- Embedding of one Miller-Rabin witness test from `is_probable_prime` for a
base `a` (with `n - 1 = 2 ^ r * d` and `d` odd): the witness passes if
`a ^ d mod n` is `1` or `n - 1`, or some of up to `r - 1` squarings reaches
`n - 1`. -/
def mrRound (n d r a : Nat) : Bool :=
  let x := modPow a d n
  if x = 1 ∨ x = n - 1 then true else squareSearch (r - 1) x n

/-- Embedding of the labelled witness loop of `is_probable_prime`: run up to
`k` witness tests with bases derived from the successive oracle draws,
returning `false` at the first failing witness. -/
def mrRounds (n d r : Nat) : Nat → (Nat → Nat) → Bool :=
  @Nat.rec (fun _ => (Nat → Nat) → Bool)
    (fun _ => true)
    (fun _ ih g =>
      if mrRound n d r (mrBase n (g 0)) then ih (fun i => g (i + 1))
      else false)

theorem mrRounds_zero (n d r : Nat) (g : Nat → Nat) : mrRounds n d r 0 g = true := rfl

theorem mrRounds_succ (n d r k : Nat) (g : Nat → Nat) : mrRounds n d r (k + 1) g =
    (if mrRound n d r (mrBase n (g 0)) then mrRounds n d r k (fun i => g (i + 1))
     else false) := rfl

/-- Embedding of `is_probable_prime(n, k)` (Miller-Rabin), with the random
base draws supplied by the oracle `g`. -/
def is_probable_prime (n k : Nat) (g : Nat → Nat) : Bool :=
  if n ≤ 1 then false
  else if n = 2 then true
  else if n = 3 then true
  else if n % 2 = 0 then false
  else
    let p := splitTwos (n - 1) (n - 1)
    mrRounds n p.2 p.1 k g

/-- Embedding of the candidate construction in `generate_prime`: a raw
`gen_biguint(bits)` draw (uniform below `2 ^ bits`), forced odd and with the
top bit of index `bits - 1` set. -/
def primeCandidate (bits draw : Nat) : Nat :=
  draw % 2 ^ bits ||| 1 ||| 2 ^ (bits - 1)

/-- Embedding of the bounded retry loop of `generate_prime`: `rem` attempts
remain and `i` is the index of the current attempt.  Attempt `i` consumes the
candidate draw `co i` and the base draws `bo i` for its 20-round
Miller-Rabin test. -/
def genLoop (bits : Nat) (co : Nat → Nat) (bo : Nat → Nat → Nat) :
    Nat → Nat → Except String Nat :=
  @Nat.rec (fun _ => Nat → Except String Nat)
    (fun _ => .error "Failed to generate prime")
    (fun _ ih i =>
      let candidate := primeCandidate bits (co i)
      if is_probable_prime candidate 20 (bo i) then .ok candidate
      else ih (i + 1))

theorem genLoop_zero (bits : Nat) (co : Nat → Nat) (bo : Nat → Nat → Nat) (i : Nat) :
    genLoop bits co bo 0 i = .error "Failed to generate prime" := rfl

theorem genLoop_succ (bits : Nat) (co : Nat → Nat) (bo : Nat → Nat → Nat) (rem i : Nat) :
    genLoop bits co bo (rem + 1) i =
    (if is_probable_prime (primeCandidate bits (co i)) 20 (bo i)
     then .ok (primeCandidate bits (co i))
     else genLoop bits co bo rem (i + 1)) := rfl

/-- Embedding of `generate_prime(bits)` with its retry budget of 1000
attempts. -/
def generate_prime (bits : Nat) (co : Nat → Nat) (bo : Nat → Nat → Nat) :
    Except String Nat :=
  genLoop bits co bo 1000 0

/-- Fuel-driven embedding of the square-and-multiply `while` loop of
`calculate_power_safely`, with state `(exp_val, result, current_power)`. -/
def powerLoop : Nat → Nat → Nat → Nat → Nat :=
  @Nat.rec (fun _ => Nat → Nat → Nat → Nat)
    (fun _ result _ => result)
    (fun _ ih e result cur =>
      if e = 0 then result
      else ih (e / 2) (if e % 2 = 1 then result * cur else result) (cur * cur))

theorem powerLoop_zero (e result cur : Nat) : powerLoop 0 e result cur = result := rfl

theorem powerLoop_succ (f e result cur : Nat) : powerLoop (f + 1) e result cur =
    (if e = 0 then result
     else powerLoop f (e / 2) (if e % 2 = 1 then result * cur else result) (cur * cur)) := rfl

/-- Embedding of `calculate_power_safely(iterations)`: the exact (unreduced)
integer power `2 ^ iterations`.  `iterations` is a `u64`, so 64 halvings of
`exp_val` always reach zero; fuel 64 therefore realises the `while` loop for
the whole input domain. -/
def calculate_power_safely (iterations : Nat) : Except String Nat :=
  if iterations = 0 then .ok 1
  else .ok (powerLoop 64 iterations 1 2)

/-- Embedding of the repeated-squaring step `y = (&y * &y) % &self.modulus`,
iterated `count` times. -/
def squareLoop (modulus : Nat) : Nat → Nat → Nat :=
  @Nat.rec (fun _ => Nat → Nat)
    (fun y => y)
    (fun _ ih y => strict (y * y % modulus) ih)

theorem squareLoop_zero (modulus y : Nat) : squareLoop modulus 0 y = y := rfl

theorem squareLoop_succ (modulus c y : Nat) :
    squareLoop modulus (c + 1) y = squareLoop modulus c (y * y % modulus) := by
  show strict (y * y % modulus) (squareLoop modulus c) = _
  rw [strict_eq]

/-- Embedding of the chunked main loop of `compute_proof_internal`: `rem`
chunks remain out of `chunks` total; each iteration performs `chunkSize`
squarings and then reports the truncated percentage `(i * 100) / chunks`
for the 0-based chunk index `i`.  Returns the final accumulator together
with the list of reported percentages in order. -/
def chunkLoop (modulus chunks chunkSize : Nat) : Nat → Nat → Nat × List Nat :=
  @Nat.rec (fun _ => Nat → Nat × List Nat)
    (fun y => (y, []))
    (fun rem ih y =>
      let y2 := squareLoop modulus chunkSize y
      let i := chunks - (rem + 1)
      let p := ih y2
      (p.1, i * 100 / chunks :: p.2))

theorem chunkLoop_zero (modulus chunks chunkSize y : Nat) :
    chunkLoop modulus chunks chunkSize 0 y = (y, []) := rfl

theorem chunkLoop_succ (modulus chunks chunkSize rem y : Nat) :
    chunkLoop modulus chunks chunkSize (rem + 1) y =
    ((chunkLoop modulus chunks chunkSize rem (squareLoop modulus chunkSize y)).1,
      (chunks - (rem + 1)) * 100 / chunks ::
        (chunkLoop modulus chunks chunkSize rem (squareLoop modulus chunkSize y)).2) := rfl

/-- Embedding of the `VDFProof` struct.  The Rust struct stores the four
big integers as base64 strings over their big-endian byte encodings; since
standard base64 is a bijection between byte sequences and their encodings,
the fields here hold the byte sequences themselves. -/
structure VDFProof where
  y : List Nat
  pi : List Nat
  l : List Nat
  r : List Nat
  iterations : Nat

/-- Embedding of `base64_to_biguint`: reject an empty byte payload, otherwise
interpret the bytes as a big-endian integer.  (The base64 string layer is the
identity under the byte-sequence representation of proof fields.) -/
def base64_to_biguint (bytes : List Nat) : Except String Nat :=
  if bytes = [] then .error "Empty bytes"
  else .ok (fromBytesBE bytes)

/-- Embedding of `compute_proof_internal(input, iterations, on_progress)`.
`hash` is the SHA-256 digest function viewed abstractly as `String → Nat`
(`BigUint::from_bytes_be` of the 32-byte digest); `modulus` is the group
modulus `self.modulus`; `co`/`bo` are the randomness oracles of the inner
`generate_prime` call.  Returns the `Result` together with the list of
percentages reported to the progress callback (whose own result the code
discards). -/
def compute_proof_internal (modulus : Nat) (hash : String → Nat) (input : String)
    (iterations : Nat) (co : Nat → Nat) (bo : Nat → Nat → Nat) :
    Except String VDFProof × List Nat :=
  if iterations < 1000 ∨ iterations > 10000000 then
    (.error ("Invalid iterations: " ++ toString iterations), [])
  else
    let x := hash input
    match generate_prime 128 co bo with
    | .error e => (.error e, [])
    | .ok l =>
      let r := modPow 2 iterations l
      let chunkSize := 1000
      let chunks := iterations / chunkSize
      let remainder := iterations % chunkSize
      let p := chunkLoop modulus chunks chunkSize chunks x
      let y := squareLoop modulus remainder p.1
      let reports := p.2 ++ [100]
      match calculate_power_safely iterations with
      | .error e => (.error e, reports)
      | .ok power =>
        let q_times_l := power - r
        let q := q_times_l / l
        let pi := modPow x q modulus
        (.ok { y := toBytesBE y, pi := toBytesBE pi, l := toBytesBE l,
               r := toBytesBE r, iterations := iterations }, reports)

/-- Embedding of `verify_proof_internal(input, proof)`.  `g` is the
randomness oracle of the 5-round `is_probable_prime` check on the decoded
challenge prime `l`. -/
def verify_proof_internal (modulus : Nat) (hash : String → Nat) (input : String)
    (proof : VDFProof) (g : Nat → Nat) : Except String Bool :=
  if proof.iterations < 1000 ∨ proof.iterations > 10000000 then
    .error ("Invalid iterations: " ++ toString proof.iterations)
  else
    let x := hash input
    match base64_to_biguint proof.y with
    | .error e => .error e
    | .ok y =>
      match base64_to_biguint proof.pi with
      | .error e => .error e
      | .ok pi =>
        match base64_to_biguint proof.l with
        | .error e => .error e
        | .ok l =>
          match base64_to_biguint proof.r with
          | .error e => .error e
          | .ok r =>
            if bits l < 120 ∨ is_probable_prime l 5 g = false then
              .error "Invalid proof prime l"
            else
              let pi_l := modPow pi l modulus
              let x_r := modPow x r modulus
              let right_side := pi_l * x_r % modulus
              .ok (decide (y = right_side))

/-- Value of a single hexadecimal digit character, the digit handling of
`BigUint::parse_bytes(.., 16)`; `none` on a non-hex-digit byte. -/
def hexDigitValue (c : Char) : Option Nat :=
  if '0' ≤ c ∧ c ≤ '9' then some (c.toNat - '0'.toNat)
  else if 'a' ≤ c ∧ c ≤ 'f' then some (10 + c.toNat - 'a'.toNat)
  else if 'A' ≤ c ∧ c ≤ 'F' then some (10 + c.toNat - 'A'.toNat)
  else none

/-- Left fold of hex digits accumulating the radix-16 value. -/
def parseHexAux : List Char → Nat → Option Nat
  | [], acc => some acc
  | c :: cs, acc =>
    match hexDigitValue c with
    | none => none
    | some v => parseHexAux cs (acc * 16 + v)

/-- Embedding of `BigUint::parse_bytes(s.as_bytes(), 16)` on the digit
strings it is applied to: fails on an empty string or on any non-hex digit,
otherwise returns the radix-16 value. -/
def parseHex (s : String) : Option Nat :=
  if s.data = [] then none else parseHexAux s.data 0

/-- The fixed 2048-bit RSA-class group modulus hex literal from
`VDFComputer::new`. -/
def modulusHex : String :=
  "C7970CEEDCC3B0754490201A7AA613CD73911081C790F5F1A8726F463550BB5B7FF0DB8E1EA1189EC72F93D1650011BD721AEEACC2ACDE32A04107F0648C2813A31F5B0B7765FF8B44B4B6FFC93384B646EB09C7CF5E8592D40EA33C80039F35B4F14A04B51F7BFD781BE4D1673164BA8EB991C2C4D730BBBE35F592BDEF524AF7E8DAEFD26C66FC02C479AF89D64D373F442709439DE66CEB955F3EA37D5159F6135809F85334B5CB1813ADDC80CD05609F10AC6A95AD65872C909525BDAD32BC729592642920F24C61DC5B3C3B7923E56B16A4D9D373D8721F24A3FC0F1B3131F55615172866BCCC30F95054C824E733A5EB6817F7BC16399D48C6361CC7E5"

/-- Embedding of the `VDFComputer` struct: it holds only the group modulus. -/
structure VDFComputer where
  modulus : Nat

/-- The constructor body of `VDFComputer::new()` as a function of the hex
literal it is applied to: `BigUint::parse_bytes(.., 16)` followed by
`.expect("Failed to parse modulus")`, whose panic — the only failure path in
the constructor — is modelled as `none`.  The body contains no other check:
any parsable constant is accepted. -/
def VDFComputer.ofHex (s : String) : Option VDFComputer :=
  (parseHex s).map (fun m => { modulus := m })

/-- Embedding of `VDFComputer::new()`: the constructor body applied to the
fixed hex literal. -/
def VDFComputer.new : Option VDFComputer :=
  VDFComputer.ofHex modulusHex

/-- The concrete modulus value produced by `VDFComputer::new`. -/
def Nmod : Nat := (parseHex modulusHex).getD 0

set_option maxRecDepth 4000 in
theorem Nmod_eq : Nmod = 25195908475657893494027183240048398571429282126204032027777137836043662020707595556264018525880784406918290641249515082189298559149176184502808489120072844992687392807287776735971418347270261896375014971824691165077613379859095700097330459748808428401797429100642458691817195118746121515172654632282216869987549182422433637259085141865462043576798423387184774447920739934236584823824281198163815010674810451660377306056201619676256133844143603833904414952634432190114657544454178424020924616515723350778707749817125772467962926386356373289912154831438167899885040445364023527381951378636564391212010397122822120720357 := by
  decide

/-- Powers of a natural number cast into `ZMod p` have value equal to the
power reduced modulo `p`. -/
theorem val_natCast_pow (p a e : Nat) (hp : 0 < p) :
    ((a : ZMod p) ^ e).val = a ^ e % p := by
  haveI : NeZero p := ⟨by omega⟩
  rw [← Nat.cast_pow, ZMod.val_natCast]

/-- The value of `-1` in `ZMod p` for positive `p` is `p - 1`. -/
theorem val_neg_one' (p : Nat) (hp : 0 < p) : (-1 : ZMod p).val = p - 1 := by
  have h := ZMod.val_neg_one (p - 1)
  have hps : (p - 1).succ = p := Nat.succ_pred_eq_of_pos hp
  rw [hps] at h
  exact h

/-- Core dichotomy behind Miller-Rabin completeness on primes: for a prime
`p` with `p - 1 = 2 ^ r * d` and a unit `b`, either `b ^ d = 1` or some
iterated square `b ^ (d * 2 ^ j)` with `j ≤ r - 1` equals `-1`. -/
theorem pow_dichotomy (p : Nat) [Fact (Nat.Prime p)] (d r : Nat) (hr : 1 ≤ r)
    (hdr : 2 ^ r * d = p - 1) (b : ZMod p) (hb : b ≠ 0) :
    b ^ d = 1 ∨ ∃ j, j ≤ r - 1 ∧ b ^ (d * 2 ^ j) = -1 := by
  classical
  have hP : ∃ j, b ^ (d * 2 ^ j) = 1 := by
    refine ⟨r, ?_⟩
    rw [Nat.mul_comm, hdr]
    exact ZMod.pow_card_sub_one_eq_one hb
  have hfind_le : Nat.find hP ≤ r := Nat.find_min' hP (by
    rw [Nat.mul_comm, hdr]
    exact ZMod.pow_card_sub_one_eq_one hb)
  rcases hj0 : Nat.find hP with _ | jj
  · left
    have := Nat.find_spec hP
    rw [hj0] at this
    simpa using this
  · right
    have hspec := Nat.find_spec hP
    rw [hj0] at hspec
    have hsq : b ^ (d * 2 ^ jj) * b ^ (d * 2 ^ jj) = b ^ (d * 2 ^ (jj + 1)) := by
      rw [← pow_add]
      congr 1
      rw [Nat.pow_succ]
      ring
    have hone : b ^ (d * 2 ^ jj) * b ^ (d * 2 ^ jj) = 1 := by rw [hsq, hspec]
    rcases mul_self_eq_one_iff.mp hone with h1 | hneg
    · exfalso
      have := Nat.find_min hP (by omega : jj < Nat.find hP)
      exact this h1
    · exact ⟨jj, by omega, hneg⟩

theorem squareSearch_of_exists (n : Nat) (hn : 0 < n) :
    ∀ (c x j : Nat), 1 ≤ j → j ≤ c → x ^ 2 ^ j % n = n - 1 →
      squareSearch c x n = true := by
  intro c
  induction c with
  | zero => intro x j h1 h2 _; omega
  | succ c ih =>
    intro x j h1 h2 hhit
    rw [squareSearch_succ]
    have hx2 : modPow x 2 n = x ^ 2 % n := modPow_correct x 2 n hn
    by_cases hfound : modPow x 2 n = n - 1
    · rw [if_pos hfound]
    · rw [if_neg hfound]
      rcases Nat.eq_or_lt_of_le h1 with h1' | h1'
    -- j = 1 would contradict hfound, so j ≥ 2 and we recurse with j - 1
      · exfalso
        rw [← h1'] at hhit
        rw [hx2] at hfound
        simp only [pow_one] at hhit
        exact hfound hhit
      · have hj2 : 2 ≤ j := h1'
        refine ih (modPow x 2 n) (j - 1) (by omega) (by omega) ?_
        rw [hx2, ← Nat.pow_mod]
        have hexp : (x ^ 2) ^ 2 ^ (j - 1) = x ^ 2 ^ j := by
          rw [← Nat.pow_mul]
          congr 1
          have hj : j - 1 + 1 = j := by omega
          calc 2 * 2 ^ (j - 1) = 2 ^ (j - 1 + 1) := by rw [Nat.pow_succ]; ring
            _ = 2 ^ j := by rw [hj]
        rw [hexp, hhit]

/-- Every Miller-Rabin witness test passes on a genuine odd prime `p ≥ 5`,
for every base in the sampled range `[2, p - 3]`. -/
theorem mrRound_prime (p : Nat) (hp : Nat.Prime p) (h5 : 5 ≤ p)
    (d r : Nat) (hdr : 2 ^ r * d = p - 1) (hr : 1 ≤ r)
    (a : Nat) (ha2 : 2 ≤ a) (ha3 : a ≤ p - 3) :
    mrRound p d r a = true := by
  haveI : Fact (Nat.Prime p) := ⟨hp⟩
  haveI : Fact (1 < p) := ⟨by omega⟩
  have hp0 : 0 < p := by omega
  have hnd : ¬ p ∣ a := by
    intro hdvd
    have := Nat.le_of_dvd (by omega) hdvd
    omega
  have hb : (a : ZMod p) ≠ 0 := by
    rw [Ne, ZMod.natCast_zmod_eq_zero_iff_dvd]
    exact hnd
  have hx : modPow a d p = a ^ d % p := modPow_correct a d p hp0
  rcases pow_dichotomy p d r hr hdr (a : ZMod p) hb with h1 | ⟨j, hjr, hneg⟩
  · have : a ^ d % p = 1 := by
      rw [← val_natCast_pow p a d hp0, h1, ZMod.val_one p]
    simp [mrRound, hx, this]
  · have hvneg : a ^ (d * 2 ^ j) % p = p - 1 := by
      rw [← val_natCast_pow p a (d * 2 ^ j) hp0, hneg, val_neg_one' p hp0]
    rcases Nat.eq_zero_or_pos j with hj0 | hjpos
    · subst hj0
      simp only [Nat.pow_zero, Nat.mul_one] at hvneg
      simp [mrRound, hx, hvneg]
    · by_cases hfirst : a ^ d % p = 1 ∨ a ^ d % p = p - 1
      · simp only [mrRound, hx]
        rw [if_pos hfirst]
      · simp only [mrRound, hx]
        rw [if_neg hfirst]
        refine squareSearch_of_exists p hp0 (r - 1) (a ^ d % p) j hjpos hjr ?_
        rw [← Nat.pow_mod, ← Nat.pow_mul, hvneg]

/-- The whole witness loop passes on a genuine odd prime `p ≥ 5`, whatever
the round count and the random draws. -/
theorem mrRounds_prime (p : Nat) (hp : Nat.Prime p) (h5 : 5 ≤ p)
    (d r : Nat) (hdr : 2 ^ r * d = p - 1) (hr : 1 ≤ r) :
    ∀ (k : Nat) (g : Nat → Nat), mrRounds p d r k g = true := by
  intro k
  induction k with
  | zero => intro g; exact mrRounds_zero p d r g
  | succ k ih =>
    intro g
    rw [mrRounds_succ]
    have hbase : 2 ≤ mrBase p (g 0) ∧ mrBase p (g 0) ≤ p - 3 := by
      have hmod : g 0 % (p - 4) < p - 4 := Nat.mod_lt _ (by omega)
      constructor
      · simp [mrBase]
      · simp only [mrBase]
        omega
    rw [mrRound_prime p hp h5 d r hdr hr (mrBase p (g 0)) hbase.1 hbase.2, if_pos rfl]
    exact ih (fun i => g (i + 1))

/-- Miller-Rabin never rejects a genuine prime: `is_probable_prime` returns
`true` on every prime for every round count and every choice of random
draws. -/
theorem is_probable_prime_of_prime (p : Nat) (hp : Nat.Prime p) (k : Nat) (g : Nat → Nat) :
    is_probable_prime p k g = true := by
  have h2 := hp.two_le
  by_cases hp2 : p = 2
  · subst hp2; simp [is_probable_prime]
  · by_cases hp3 : p = 3
    · subst hp3; simp [is_probable_prime]
    · have hodd : p % 2 = 1 := by
        rcases Nat.mod_two_eq_zero_or_one p with h | h
        · exfalso
          have : (2 : Nat) ∣ p := Nat.dvd_of_mod_eq_zero h
          have := (Nat.prime_dvd_prime_iff_eq Nat.prime_two hp).mp this
          omega
        · exact h
      have h5 : 5 ≤ p := by omega
      have hsplit := splitTwos_correct (p - 1) (p - 1) (by omega) (le_refl _)
      have hr1 : 1 ≤ (splitTwos (p - 1) (p - 1)).1 := by
        by_contra hc
        have h0 : (splitTwos (p - 1) (p - 1)).1 = 0 := by omega
        rw [h0, Nat.pow_zero, Nat.one_mul] at hsplit
        omega
      simp only [is_probable_prime, if_neg (by omega : ¬ p ≤ 1), if_neg hp2, if_neg hp3,
        if_neg (by omega : ¬ p % 2 = 0)]
      exact mrRounds_prime p hp h5 (splitTwos (p - 1) (p - 1)).2
        (splitTwos (p - 1) (p - 1)).1 hsplit.2 hr1 k g

theorem squareLoop_add (N : Nat) : ∀ (a b y : Nat),
    squareLoop N (a + b) y = squareLoop N b (squareLoop N a y) := by
  intro a
  induction a with
  | zero => intro b y; rw [squareLoop_zero, Nat.zero_add]
  | succ a ih =>
    intro b y
    have hcomm : a + 1 + b = (a + b) + 1 := by omega
    rw [hcomm, squareLoop_succ, squareLoop_succ, ih]

theorem squareLoop_spec (N : Nat) (hN : 0 < N) : ∀ (c y : Nat), 1 ≤ c →
    squareLoop N c y = y ^ 2 ^ c % N := by
  intro c
  induction c with
  | zero => intro y h; omega
  | succ c ih =>
    intro y _
    rcases Nat.eq_zero_or_pos c with hc0 | hcpos
    · subst hc0
      rw [squareLoop_succ, squareLoop_zero]
      norm_num [Nat.pow_two]
    · rw [squareLoop_succ, ih (y * y % N) hcpos, ← Nat.pow_mod, ← Nat.pow_two,
        ← Nat.pow_mul, ← Nat.pow_succ']

theorem chunkLoop_fst (N chunks cs : Nat) : ∀ (rem y : Nat),
    (chunkLoop N chunks cs rem y).1 = squareLoop N (rem * cs) y := by
  intro rem
  induction rem with
  | zero => intro y; rw [chunkLoop_zero, Nat.zero_mul, squareLoop_zero]
  | succ rem ih =>
    intro y
    rw [chunkLoop_succ]
    simp only
    rw [ih (squareLoop N cs y), ← squareLoop_add]
    congr 1
    ring

theorem chunkLoop_snd (N chunks cs : Nat) : ∀ (rem y : Nat), rem ≤ chunks →
    (chunkLoop N chunks cs rem y).2 =
      (List.range rem).map (fun j => (chunks - rem + j) * 100 / chunks) := by
  intro rem
  induction rem with
  | zero => intro y _; rw [chunkLoop_zero]; simp
  | succ rem ih =>
    intro y hle
    rw [chunkLoop_succ]
    simp only
    rw [ih (squareLoop N cs y) (by omega), List.range_succ_eq_map, List.map_cons,
      List.map_map]
    refine List.cons_eq_cons.mpr ⟨by norm_num, ?_⟩
    apply List.map_congr_left
    intro j hj
    simp only [Function.comp_apply]
    congr 1
    omega

theorem powerLoop_spec : ∀ (f e res cur : Nat), e < 2 ^ f →
    powerLoop f e res cur = res * cur ^ e := by
  intro f
  induction f with
  | zero =>
    intro e res cur he
    interval_cases e
    rw [powerLoop_zero]
    simp
  | succ f ih =>
    intro e res cur he
    rw [powerLoop_succ]
    by_cases he0 : e = 0
    · subst he0; simp
    · rw [if_neg he0, Nat.pow_succ] at *
      have hhalf : e / 2 < 2 ^ f := by omega
      rw [ih (e / 2) _ _ hhalf]
      have hsq : (cur * cur) ^ (e / 2) = cur ^ (2 * (e / 2)) := by
        rw [← Nat.pow_two, ← Nat.pow_mul]
      rcases Nat.mod_two_eq_zero_or_one e with hpar | hpar
      · rw [if_neg (by omega : ¬ e % 2 = 1), hsq]
        congr 1
        congr 1
        omega
      · rw [if_pos hpar, hsq, Nat.mul_assoc, ← Nat.pow_succ']
        congr 1
        congr 1
        omega

theorem calculate_power_safely_spec (t : Nat) (ht : t < 2 ^ 64) :
    calculate_power_safely t = .ok (2 ^ t) := by
  by_cases h0 : t = 0
  · subst h0; simp [calculate_power_safely]
  · rw [calculate_power_safely, if_neg h0, powerLoop_spec 64 t 1 2 ht, Nat.one_mul]

theorem primeCandidate_odd (bits draw : Nat) : primeCandidate bits draw % 2 = 1 := by
  have hbit : (primeCandidate bits draw).testBit 0 = true := by
    simp only [primeCandidate, Nat.testBit_lor]
    have h1 : (1 : Nat).testBit 0 = true := by decide
    simp [h1]
  simpa [Nat.testBit_zero] using hbit

theorem primeCandidate_ge (bits draw : Nat) :
    2 ^ (bits - 1) ≤ primeCandidate bits draw := by
  apply Nat.testBit_implies_ge
  simp only [primeCandidate, Nat.testBit_lor]
  simp [Nat.testBit_two_pow_self]

theorem primeCandidate_lt (bits draw : Nat) (hb : 1 ≤ bits) :
    primeCandidate bits draw < 2 ^ bits := by
  have h1 : draw % 2 ^ bits < 2 ^ bits := Nat.mod_lt _ (Nat.pos_pow_of_pos bits (by norm_num))
  have h2 : (1 : Nat) < 2 ^ bits := by
    calc (1 : Nat) < 2 ^ 1 := by norm_num
      _ ≤ 2 ^ bits := Nat.pow_le_pow_right (by norm_num) hb
  have h3 : 2 ^ (bits - 1) < 2 ^ bits := Nat.pow_lt_pow_right (by norm_num) (by omega)
  exact Nat.bitwise_lt_two_pow (Nat.bitwise_lt_two_pow h1 h2) h3

theorem genLoop_ok (bits : Nat) (co : Nat → Nat) (bo : Nat → Nat → Nat) :
    ∀ (rem i l : Nat), genLoop bits co bo rem i = .ok l →
      ∃ j, i ≤ j ∧ j < i + rem ∧ l = primeCandidate bits (co j) ∧
        is_probable_prime l 20 (bo j) = true := by
  intro rem
  induction rem with
  | zero => intro i l h; rw [genLoop_zero] at h; exact absurd h (by simp)
  | succ rem ih =>
    intro i l h
    rw [genLoop_succ] at h
    by_cases hpass : is_probable_prime (primeCandidate bits (co i)) 20 (bo i) = true
    · rw [if_pos hpass] at h
      have hl : l = primeCandidate bits (co i) := by
        cases h
        rfl
      exact ⟨i, le_refl i, by omega, hl, by rw [hl]; exact hpass⟩
    · rw [if_neg hpass] at h
      obtain ⟨j, hj1, hj2, hj3, hj4⟩ := ih (i + 1) l h
      exact ⟨j, by omega, by omega, hj3, hj4⟩

theorem genLoop_error (bits : Nat) (co : Nat → Nat) (bo : Nat → Nat → Nat) :
    ∀ (rem i : Nat),
      (∀ j, i ≤ j → j < i + rem →
        is_probable_prime (primeCandidate bits (co j)) 20 (bo j) = false) →
      genLoop bits co bo rem i = .error "Failed to generate prime" := by
  intro rem
  induction rem with
  | zero => intro i _; exact genLoop_zero bits co bo i
  | succ rem ih =>
    intro i hall
    rw [genLoop_succ]
    have h0 := hall i (le_refl i) (by omega)
    rw [if_neg (by rw [h0]; simp)]
    exact ih (i + 1) (fun j hj1 hj2 => hall j (by omega) (by omega))

/-- The value decoded from an encoded field is the original value: the
byte layer round-trips and is never empty. -/
theorem base64_roundtrip (v : Nat) : base64_to_biguint (toBytesBE v) = .ok v := by
  rw [base64_to_biguint, if_neg (toBytesBE_ne_nil v), fromBytesBE_toBytesBE]

/-- The witness loop succeeds exactly when every one of the `k` witness tests
passes on the base derived from its draw. -/
theorem mrRounds_eq_true_iff (n d r : Nat) : ∀ (k : Nat) (g : Nat → Nat),
    mrRounds n d r k g = true ↔ ∀ i < k, mrRound n d r (mrBase n (g i)) = true := by
  intro k
  induction k with
  | zero =>
    intro g
    rw [mrRounds_zero]
    simp
  | succ k ih =>
    intro g
    rw [mrRounds_succ]
    by_cases h0 : mrRound n d r (mrBase n (g 0)) = true
    · rw [if_pos h0, ih (fun i => g (i + 1))]
      constructor
      · intro h i hi
        cases i with
        | zero => exact h0
        | succ i => exact h i (by omega)
      · intro h i hi
        exact h (i + 1) (by omega)
    · rw [if_neg h0]
      constructor
      · intro h
        exact absurd h (by simp)
      · intro h
        exact absurd (h 0 (by omega)) h0

/-- Inversion of a successful `compute_proof_internal` run: the iteration
count was in range, `generate_prime` succeeded with some `l`, and the
returned proof and progress reports are the encodings of the computed
values. -/
theorem compute_ok_inv (N : Nat) (hash : String → Nat) (input : String) (t : Nat)
    (co : Nat → Nat) (bo : Nat → Nat → Nat) (pr : VDFProof) (reps : List Nat)
    (hc : compute_proof_internal N hash input t co bo = (.ok pr, reps)) :
    1000 ≤ t ∧ t ≤ 10000000 ∧
    ∃ l, generate_prime 128 co bo = .ok l ∧
      pr.y = toBytesBE (squareLoop N (t % 1000)
        (chunkLoop N (t / 1000) 1000 (t / 1000) (hash input)).1) ∧
      pr.pi = toBytesBE (modPow (hash input) ((2 ^ t - modPow 2 t l) / l) N) ∧
      pr.l = toBytesBE l ∧
      pr.r = toBytesBE (modPow 2 t l) ∧
      pr.iterations = t ∧
      reps = (chunkLoop N (t / 1000) 1000 (t / 1000) (hash input)).2 ++ [100] := by
  rw [compute_proof_internal] at hc
  by_cases hrange : t < 1000 ∨ t > 10000000
  · rw [if_pos hrange] at hc
    simp at hc
  · rw [if_neg hrange] at hc
    refine ⟨by omega, by omega, ?_⟩
    cases hgen : generate_prime 128 co bo with
    | error e =>
      rw [hgen] at hc
      simp at hc
    | ok l =>
      rw [hgen] at hc
      have hcp : calculate_power_safely t = .ok (2 ^ t) := by
        apply calculate_power_safely_spec
        have : (10000000 : Nat) < 2 ^ 64 := by norm_num
        omega
      rw [hcp] at hc
      simp only [Prod.mk.injEq, Except.ok.injEq] at hc
      refine ⟨l, rfl, ?_, ?_, ?_, ?_, ?_, hc.2.symm⟩ <;> rw [← hc.1]

set_option maxRecDepth 4000 in
/-- C5: evaluation of the constructor at its only execution path.  The body
of `VDFComputer::new` is `parse_bytes(...).expect(...)` alone: parsing is
the only condition it checks and the `.expect` panic is its only failure
path.  Applied to the fixed literal it succeeds with the modulus `Nmod`;
the same constructor body applied to the hex literal `"A"` — an even
modulus of bit length 4, far below the 256-bit digest width — also succeeds
without any error, so the oddness and bit-length validation asserted by the
claim does not exist in the code.  The omission is latent for the shipped
constant, which happens to be odd with bit length 2048 > 256. -/
theorem c5_no_validation :
    VDFComputer.new = some { modulus := Nmod } ∧
    VDFComputer.ofHex "A" = some { modulus := 10 } ∧
    (10 : Nat) % 2 = 0 ∧ bits 10 < 256 ∧
    Nmod % 2 = 1 ∧ 256 < bits Nmod ∧ bits Nmod = 2048 := by
  have hparse : parseHex modulusHex = some Nmod := by
    rw [Nmod_eq]
    decide
  refine ⟨?_, ?_, ?_, ?_, ?_, ?_, ?_⟩
  · rw [VDFComputer.new, VDFComputer.ofHex, hparse]
    rfl
  · rfl
  · rfl
  · decide
  · rw [Nmod_eq]
  · apply le_bits_of_pow_le
    rw [Nmod_eq]
    norm_num
  · have hup : bits Nmod ≤ 2048 := by
      rw [bits_le_iff, Nmod_eq]
      norm_num
    have hlow : 2047 < bits Nmod := by
      apply le_bits_of_pow_le
      rw [Nmod_eq]
      norm_num
    omega

/-- C6: both `compute_proof_internal` and `verify_proof_internal` reject any
iteration count outside the closed range `[1000, 10000000]` with the same
`Invalid iterations` error, producing no proof, no boolean result and (for
compute) no progress reports. -/
theorem c6_invalid_iterations (N : Nat) (hash : String → Nat) :
    (∀ (input : String) (t : Nat) (co : Nat → Nat) (bo : Nat → Nat → Nat),
      t < 1000 ∨ t > 10000000 →
      compute_proof_internal N hash input t co bo =
        (.error ("Invalid iterations: " ++ toString t), [])) ∧
    (∀ (input : String) (pr : VDFProof) (g : Nat → Nat),
      pr.iterations < 1000 ∨ pr.iterations > 10000000 →
      verify_proof_internal N hash input pr g =
        .error ("Invalid iterations: " ++ toString pr.iterations)) := by
  constructor
  · intro input t co bo h
    rw [compute_proof_internal, if_pos h]
  · intro input pr g h
    rw [verify_proof_internal, if_pos h]

theorem c6_witness :
    compute_proof_internal 97 (fun _ => 5) "x" 999 (fun _ => 0) (fun _ _ => 0) =
      (.error ("Invalid iterations: " ++ toString 999), []) ∧
    verify_proof_internal 97 (fun _ => 5) "x" ⟨[1], [1], [1], [1], 10000001⟩ (fun _ => 0) =
      .error ("Invalid iterations: " ++ toString 10000001) :=
  ⟨(c6_invalid_iterations 97 (fun _ => 5)).1 "x" 999 (fun _ => 0) (fun _ _ => 0) (by omega),
   (c6_invalid_iterations 97 (fun _ => 5)).2 "x" ⟨[1], [1], [1], [1], 10000001⟩ (fun _ => 0)
     (by decide)⟩

/-- C9: decoding an empty byte payload yields the `DecodeError` of
`base64_to_biguint`, and if any of the four proof fields has an empty
payload, `verify_proof_internal` surfaces that error instead of a boolean
result. -/
theorem c9_empty_payload (N : Nat) (hash : String → Nat) (input : String)
    (pr : VDFProof) (g : Nat → Nat)
    (hrange : 1000 ≤ pr.iterations ∧ pr.iterations ≤ 10000000)
    (hempty : pr.y = [] ∨ pr.pi = [] ∨ pr.l = [] ∨ pr.r = []) :
    base64_to_biguint [] = .error "Empty bytes" ∧
    verify_proof_internal N hash input pr g = .error "Empty bytes" := by
  refine ⟨rfl, ?_⟩
  rw [verify_proof_internal, if_neg (by omega)]
  by_cases h1 : pr.y = []
  · rw [base64_to_biguint, if_pos h1]
  · rw [base64_to_biguint, if_neg h1]
    by_cases h2 : pr.pi = []
    · rw [base64_to_biguint, if_pos h2]
    · rw [base64_to_biguint, if_neg h2]
      by_cases h3 : pr.l = []
      · rw [base64_to_biguint, if_pos h3]
      · rw [base64_to_biguint, if_neg h3]
        by_cases h4 : pr.r = []
        · rw [base64_to_biguint, if_pos h4]
        · tauto

theorem c9_witness :
    base64_to_biguint [] = .error "Empty bytes" ∧
    verify_proof_internal 97 (fun _ => 2) "x" ⟨[1], [1], [], [1], 1000⟩ (fun _ => 0) =
      .error "Empty bytes" :=
  c9_empty_payload 97 (fun _ => 2) "x" ⟨[1], [1], [], [1], 1000⟩ (fun _ => 0)
    (by decide) (by decide)

/-- C10 (implicit): `base64_to_biguint` succeeds on every non-empty byte
payload, interpreting it as a big-endian integer; prepending superfluous
zero bytes leaves the decoded value unchanged, so `verify_proof_internal`
returns the same result for non-minimal encodings of the four fields as for
the original encodings — minimality is never enforced. -/
theorem c10_nonminimal_encodings (N : Nat) (hash : String → Nat) (input : String) :
    (∀ bs : List Nat, bs ≠ [] → base64_to_biguint bs = .ok (fromBytesBE bs)) ∧
    (∀ (k : Nat) (bs : List Nat),
      fromBytesBE (List.replicate k 0 ++ bs) = fromBytesBE bs) ∧
    (∀ (ys pis ls rs : List Nat) (it : Nat) (g : Nat → Nat) (k1 k2 k3 k4 : Nat),
      ys ≠ [] → pis ≠ [] → ls ≠ [] → rs ≠ [] →
      verify_proof_internal N hash input
        ⟨List.replicate k1 0 ++ ys, List.replicate k2 0 ++ pis,
         List.replicate k3 0 ++ ls, List.replicate k4 0 ++ rs, it⟩ g =
      verify_proof_internal N hash input ⟨ys, pis, ls, rs, it⟩ g) := by
  have hpad : ∀ (k : Nat) (bs : List Nat), bs ≠ [] →
      base64_to_biguint (List.replicate k 0 ++ bs) = base64_to_biguint bs := by
    intro k bs h
    have hne : List.replicate k 0 ++ bs ≠ [] := by
      intro hcontra
      exact h (List.append_eq_nil.mp hcontra).2
    rw [base64_to_biguint, base64_to_biguint, if_neg h, if_neg hne, fromBytesBE_zero_pad]
  refine ⟨?_, fromBytesBE_zero_pad, ?_⟩
  · intro bs h
    rw [base64_to_biguint, if_neg h]
  · intro ys pis ls rs it g k1 k2 k3 k4 hy hpi hl hr
    simp only [verify_proof_internal, hpad _ _ hy, hpad _ _ hpi, hpad _ _ hl, hpad _ _ hr]

theorem c10_witness :
    base64_to_biguint [1, 2] = .ok (fromBytesBE [1, 2]) ∧
    fromBytesBE (List.replicate 3 0 ++ [1, 2]) = fromBytesBE [1, 2] ∧
    verify_proof_internal 97 (fun _ => 2) "x"
      ⟨List.replicate 1 0 ++ [5], List.replicate 1 0 ++ [1],
       List.replicate 1 0 ++ [7], List.replicate 1 0 ++ [1], 1000⟩ (fun _ => 0) =
    verify_proof_internal 97 (fun _ => 2) "x" ⟨[5], [1], [7], [1], 1000⟩ (fun _ => 0) :=
  ⟨(c10_nonminimal_encodings 97 (fun _ => 2) "x").1 [1, 2] (by decide),
   (c10_nonminimal_encodings 97 (fun _ => 2) "x").2.1 3 [1, 2],
   (c10_nonminimal_encodings 97 (fun _ => 2) "x").2.2 [5] [1] [7] [1] 1000 (fun _ => 0)
     1 1 1 1 (by decide) (by decide) (by decide) (by decide)⟩

/-- Concrete digest oracle for witness runs (the theorems hold for every
digest function, so any concrete value works). -/
def hashW : String → Nat := fun _ => 5

/-- Candidate-draw oracle whose first draw is the 128-bit prime
`859 * 2 ^ 118 + 1`, so `generate_prime` succeeds on the first attempt. -/
def coW : Nat → Nat := fun _ => 285451712094810683706092566195203997697

/-- Base-draw oracle mapping every Miller-Rabin draw to base 2. -/
def boW : Nat → Nat → Nat := fun _ _ => 0

/-- The proof produced by a concrete successful `compute_proof_internal`
run with the real modulus, input `"test"` and `t = 1000`. -/
def prW : VDFProof :=
  ((compute_proof_internal Nmod hashW "test" 1000 coW boW).1).toOption.getD ⟨[], [], [], [], 0⟩

/-- The progress reports of the same concrete run. -/
def repsW : List Nat := (compute_proof_internal Nmod hashW "test" 1000 coW boW).2

/-- C2: every proof returned by `compute_proof_internal` satisfies
`r < l`, `l` exactly divides `2 ^ t - r` (so the quotient is an exact
integer division), and `calculate_power_safely` returns exactly the full
integer power `2 ^ t`. -/
theorem c2_generated_proof_invariants (N : Nat) (hash : String → Nat) (input : String)
    (t : Nat) (co : Nat → Nat) (bo : Nat → Nat → Nat) (pr : VDFProof) (reps : List Nat)
    (hc : compute_proof_internal N hash input t co bo = (.ok pr, reps)) :
    fromBytesBE pr.r < fromBytesBE pr.l ∧
    fromBytesBE pr.l ∣ (2 ^ t - fromBytesBE pr.r) ∧
    calculate_power_safely t = .ok (2 ^ t) := by
  obtain ⟨ht1, ht2, l, hgen, hy, hpi, hl, hr, hit, hreps⟩ :=
    compute_ok_inv N hash input t co bo pr reps hc
  obtain ⟨j, _, _, hlcand, _⟩ := genLoop_ok 128 co bo 1000 0 l hgen
  have hlpos : 0 < l := by
    have := primeCandidate_ge 128 (co j)
    rw [← hlcand] at this
    have h2 : (0 : Nat) < 2 ^ 127 := Nat.pos_pow_of_pos _ (by norm_num)
    omega
  rw [hl, hr, fromBytesBE_toBytesBE, fromBytesBE_toBytesBE,
    modPow_correct 2 t l hlpos]
  refine ⟨Nat.mod_lt _ hlpos, ?_, ?_⟩
  · have hdm := Nat.div_add_mod (2 ^ t) l
    have heq : 2 ^ t - 2 ^ t % l = l * (2 ^ t / l) := by omega
    rw [heq]
    exact Dvd.intro _ rfl
  · apply calculate_power_safely_spec
    have : (10000000 : Nat) < 2 ^ 64 := by norm_num
    omega

set_option maxRecDepth 8000 in
theorem c2_witness :
    fromBytesBE prW.r < fromBytesBE prW.l ∧
    fromBytesBE prW.l ∣ (2 ^ 1000 - fromBytesBE prW.r) ∧
    calculate_power_safely 1000 = .ok (2 ^ 1000) :=
  c2_generated_proof_invariants Nmod hashW "test" 1000 coW boW prW repsW rfl

/-- C4 (amended): during a successful `compute_proof_internal` run the
reported progress sequence is exactly `i * 100 / chunks` for the 0-based
index `i` of each completed chunk (that is, `(chunks_completed - 1) * 100 /
total_chunks`, one less in the numerator than the claim's formula), followed
by one final report of exactly 100 after the loop; the sequence is
monotonically non-decreasing and ends with exactly 100. -/
theorem c4_progress_reports (N : Nat) (hash : String → Nat) (input : String) (t : Nat)
    (co : Nat → Nat) (bo : Nat → Nat → Nat) (pr : VDFProof) (reps : List Nat)
    (hc : compute_proof_internal N hash input t co bo = (.ok pr, reps)) :
    reps = (List.range (t / 1000)).map (fun i => i * 100 / (t / 1000)) ++ [100] ∧
    List.Chain' (· ≤ ·) reps ∧
    reps.getLast? = some 100 := by
  obtain ⟨ht1, ht2, l, hgen, hy, hpi, hl, hr, hit, hreps⟩ :=
    compute_ok_inv N hash input t co bo pr reps hc
  have hcpos : 0 < t / 1000 := Nat.div_pos ht1 (by norm_num)
  have hsnd := chunkLoop_snd N (t / 1000) 1000 (t / 1000) (hash input) (le_refl _)
  have hform : reps = (List.range (t / 1000)).map (fun i => i * 100 / (t / 1000)) ++ [100] := by
    rw [hreps, hsnd]
    congr 1
    apply List.map_congr_left
    intro j hj
    congr 2
    omega
  have hlast : (t / 1000 - 1 + 1) = t / 1000 := by omega
  have hfull : reps = (List.range (t / 1000 + 1)).map (fun i => i * 100 / (t / 1000)) := by
    rw [hform, List.range_succ, List.map_append]
    congr 1
    simp only [List.map_cons, List.map_nil]
    rw [Nat.mul_div_cancel_left 100 hcpos]
  refine ⟨hform, ?_, ?_⟩
  · rw [hfull, List.chain'_map]
    have := List.chain'_range_succ (fun a b => a * 100 / (t / 1000) ≤ b * 100 / (t / 1000))
      (t / 1000)
    rw [this]
    intro m hm
    exact Nat.div_le_div_right (Nat.mul_le_mul_right _ (by omega))
  · rw [hform, List.getLast?_concat]

set_option maxRecDepth 8000 in
theorem c4_witness :
    repsW = (List.range (1000 / 1000)).map (fun i => i * 100 / (1000 / 1000)) ++ [100] ∧
    List.Chain' (· ≤ ·) repsW ∧
    repsW.getLast? = some 100 :=
  c4_progress_reports Nmod hashW "test" 1000 coW boW prW repsW rfl

set_option maxRecDepth 8000 in
/-- C4 counterexample: for `t = 2000` (two chunks) the code's reported
sequence is `[0, 50, 100]` — the value after the first completed chunk is
`0`, not the claimed `chunks_completed / total_chunks * 100 = 50`; the
claimed per-chunk formula would produce `[50, 100, 100]`. -/
theorem c4_counterexample :
    (compute_proof_internal Nmod hashW "test" 2000 coW boW).2 = [0, 50, 100] ∧
    ([0, 50, 100] : List Nat) ≠
      (List.range (2000 / 1000)).map (fun i => (i + 1) * 100 / (2000 / 1000)) ++ [100] := by
  constructor
  · rfl
  · decide

/-- Powers in `ZMod p` equal 1 exactly when the executable `modPow` returns
1, linking the Lucas certificate conditions to kernel computation. -/
theorem zmod_pow_eq_one_iff (p a e : Nat) (hp : 1 < p) :
    ((a : Nat) : ZMod p) ^ e = 1 ↔ modPow a e p = 1 := by
  haveI : NeZero p := ⟨by omega⟩
  haveI : Fact (1 < p) := ⟨hp⟩
  rw [modPow_correct a e p (by omega)]
  constructor
  · intro h
    have hv := congrArg ZMod.val h
    rw [val_natCast_pow p a e (by omega), ZMod.val_one p] at hv
    exact hv
  · intro h
    calc ((a : Nat) : ZMod p) ^ e = ((a ^ e : Nat) : ZMod p) := by rw [Nat.cast_pow]
      _ = ((a ^ e % p : Nat) : ZMod p) := by rw [ZMod.natCast_mod]
      _ = ((1 : Nat) : ZMod p) := by rw [h]
      _ = 1 := Nat.cast_one

set_option maxRecDepth 8000 in
/-- The challenge value used in the concrete witness run is prime, by a
Lucas certificate: `285451712094810683706092566195203997697 = 859 * 2 ^ 118
+ 1` with witness base 3. -/
theorem witness_l_prime : Nat.Prime 285451712094810683706092566195203997697 := by
  have h2 : (1 : Nat) < 285451712094810683706092566195203997697 := by norm_num
  apply lucas_primality _ ((3 : Nat) : ZMod 285451712094810683706092566195203997697)
  · rw [zmod_pow_eq_one_iff _ _ _ h2]
    decide
  · intro q hq hdvd
    have hfact : 285451712094810683706092566195203997697 - 1 = 859 * 2 ^ 118 := by norm_num
    rw [hfact] at hdvd
    have hq2 : q = 859 ∨ q = 2 := by
      rcases (Nat.Prime.dvd_mul hq).mp hdvd with h | h
      · exact Or.inl ((Nat.prime_dvd_prime_iff_eq hq (by norm_num)).mp h)
      · exact Or.inr ((Nat.prime_dvd_prime_iff_eq hq (by norm_num)).mp (hq.dvd_of_dvd_pow h))
    rw [Ne, zmod_pow_eq_one_iff _ _ _ h2]
    rcases hq2 with h | h <;> subst h <;> decide

/-- C1 (amended): for every outcome of the internal randomness in which
`compute_proof_internal` returns a proof and the generated challenge value
`l` is genuinely prime (which fails only when the 20-round Miller-Rabin test
accepted a composite), `verify_proof_internal` on the same input returns
`Ok(true)` for every outcome of its own 5-round primality-test randomness. -/
theorem c1_roundtrip_verifies (N : Nat) (hN : 0 < N) (hash : String → Nat) (input : String)
    (t : Nat) (co : Nat → Nat) (bo : Nat → Nat → Nat) (pr : VDFProof) (reps : List Nat)
    (vo : Nat → Nat)
    (hc : compute_proof_internal N hash input t co bo = (.ok pr, reps))
    (hlprime : Nat.Prime (fromBytesBE pr.l)) :
    verify_proof_internal N hash input pr vo = .ok true := by
  obtain ⟨ht1, ht2, l, hgen, hy, hpi, hl, hr, hit, hreps⟩ :=
    compute_ok_inv N hash input t co bo pr reps hc
  rw [hl, fromBytesBE_toBytesBE] at hlprime
  obtain ⟨j, _, _, hlcand, _⟩ := genLoop_ok 128 co bo 1000 0 l hgen
  have hl127 : 2 ^ 127 ≤ l := by
    rw [hlcand]
    exact primeCandidate_ge 128 (co j)
  have hlpos : 0 < l := by
    have h2 : (0 : Nat) < 2 ^ 127 := Nat.pos_pow_of_pos _ (by norm_num)
    omega
  have hbits : ¬ bits l < 120 := by
    have := le_bits_of_pow_le hl127
    omega
  have hmr : is_probable_prime l 5 vo = true := is_probable_prime_of_prime l hlprime 5 vo
  have hyval : squareLoop N (t % 1000) (chunkLoop N (t / 1000) 1000 (t / 1000) (hash input)).1
      = (hash input) ^ 2 ^ t % N := by
    rw [chunkLoop_fst, ← squareLoop_add]
    have ht' : t / 1000 * 1000 + t % 1000 = t := by
      have := Nat.div_add_mod t 1000
      omega
    rw [ht']
    exact squareLoop_spec N hN t (hash input) (by omega)
  have hrv : modPow 2 t l = 2 ^ t % l := modPow_correct 2 t l hlpos
  have hq : (2 ^ t - modPow 2 t l) / l = 2 ^ t / l := by
    rw [hrv]
    have hdm := Nat.div_add_mod (2 ^ t) l
    have heq : 2 ^ t - 2 ^ t % l = l * (2 ^ t / l) := by omega
    rw [heq, Nat.mul_div_cancel_left _ hlpos]
  have hrhs : modPow (modPow (hash input) ((2 ^ t - modPow 2 t l) / l) N) l N *
      modPow (hash input) (modPow 2 t l) N % N = (hash input) ^ 2 ^ t % N := by
    rw [hq, hrv, modPow_correct _ _ _ hN, modPow_correct _ _ _ hN, modPow_correct _ _ _ hN,
      ← Nat.pow_mod, ← Nat.pow_mul, ← Nat.mul_mod, ← pow_add]
    have hexp : 2 ^ t / l * l + 2 ^ t % l = 2 ^ t := by
      rw [Nat.mul_comm]
      exact Nat.div_add_mod (2 ^ t) l
    rw [hexp]
  rw [verify_proof_internal, hit, if_neg (by omega : ¬ (t < 1000 ∨ t > 10000000))]
  simp only [hy, hpi, hl, hr, base64_roundtrip]
  rw [if_neg (by
    intro hcond
    rcases hcond with hb | hf
    · exact hbits hb
    · rw [hmr] at hf
      exact Bool.noConfusion hf)]
  rw [hyval, hrhs]
  simp

/-- Verification-randomness oracle for the witness run. -/
def voW : Nat → Nat := fun _ => 0

set_option maxRecDepth 8000 in
theorem c1_witness : verify_proof_internal Nmod hashW "test" prW voW = .ok true :=
  c1_roundtrip_verifies Nmod (by decide) hashW "test" 1000 coW boW prW repsW voW rfl
    (by
      have h : fromBytesBE prW.l = 285451712094810683706092566195203997697 := rfl
      rw [h]
      exact witness_l_prime)

/-- Candidate-draw oracle whose first draw is the 128-bit composite
`17013346644619304269 * 10404441435234747343`. -/
def coC : Nat → Nat := fun _ => 177014368781289147057618332938656307267

/-- Base-draw oracle mapping every generation-side Miller-Rabin draw to a
strong liar (a cube root of unity) for that composite, so all 20 rounds
pass. -/
def boC : Nat → Nat → Nat := fun _ _ => 19134979476124968757265587766423918155

/-- Verification-side oracle mapping every draw to base 2, a Miller-Rabin
witness for the composite. -/
def voC : Nat → Nat := fun _ => 0

set_option maxRecDepth 8000 in
/-- C1 counterexample: an outcome of the internal randomness in which
`compute_proof_internal` returns a proof (the 20-round test accepts a
composite `l` because every draw maps to a strong liar), while
`verify_proof_internal` — with a base-2 draw for its 5-round test — returns
the `InvalidProofPrime` error, not `Ok(true)`. -/
theorem c1_counterexample :
    ((compute_proof_internal Nmod hashW "test" 1000 coC boC).1).map
      (fun pr => verify_proof_internal Nmod hashW "test" pr voC)
      = .ok (.error "Invalid proof prime l") ∧
    17013346644619304269 * 10404441435234747343 = coC 0 :=
  ⟨rfl, rfl⟩

/-- For odd `n ≥ 5`, `is_probable_prime` reduces to the witness loop on the
two-adic decomposition of `n - 1`. -/
theorem is_probable_prime_odd (n k : Nat) (g : Nat → Nat) (h5 : 5 ≤ n) (hodd : n % 2 = 1) :
    is_probable_prime n k g =
      mrRounds n (splitTwos (n - 1) (n - 1)).2 (splitTwos (n - 1) (n - 1)).1 k g := by
  rw [is_probable_prime, if_neg (by omega : ¬ n ≤ 1), if_neg (by omega : ¬ n = 2),
    if_neg (by omega : ¬ n = 3), if_neg (by omega : ¬ n % 2 = 0)]

/-- C3 (amended): `is_probable_prime` returns `false` for `n ≤ 1`, `true`
for 2 and 3, `false` for even `n > 3`; for odd `n ≥ 5` it factors
`n - 1 = 2 ^ r * d` with `d` odd and returns `true` exactly when all `k`
witness tests pass (short-circuiting on the first failure); the bases are
drawn from the half-open range `[2, n - 2)` — every value of `{2, ..., n-3}`
is reachable and only those; it returns `true` for 2, 3, 7 and 104729 for
every round count and every choice of draws, and `false` for 0, 1, 4, 100
(any round count) and for 9 (any round count `k ≥ 1`). -/
theorem c3_is_probable_prime_behaviour :
    (∀ (n k : Nat) (g : Nat → Nat), n ≤ 1 → is_probable_prime n k g = false) ∧
    (∀ (k : Nat) (g : Nat → Nat),
      is_probable_prime 2 k g = true ∧ is_probable_prime 3 k g = true) ∧
    (∀ (n k : Nat) (g : Nat → Nat), 3 < n → n % 2 = 0 → is_probable_prime n k g = false) ∧
    (∀ (n k : Nat) (g : Nat → Nat), 5 ≤ n → n % 2 = 1 →
      ((splitTwos (n - 1) (n - 1)).2 % 2 = 1 ∧
        2 ^ (splitTwos (n - 1) (n - 1)).1 * (splitTwos (n - 1) (n - 1)).2 = n - 1 ∧
        (is_probable_prime n k g = true ↔
          ∀ i < k, mrRound n (splitTwos (n - 1) (n - 1)).2
            (splitTwos (n - 1) (n - 1)).1 (mrBase n (g i)) = true))) ∧
    (∀ (n draw : Nat), 5 ≤ n → 2 ≤ mrBase n draw ∧ mrBase n draw ≤ n - 3) ∧
    (∀ (n b : Nat), 5 ≤ n → 2 ≤ b → b ≤ n - 3 → ∃ draw, mrBase n draw = b) ∧
    (∀ (k : Nat) (g : Nat → Nat), is_probable_prime 7 k g = true) ∧
    (∀ (k : Nat) (g : Nat → Nat), is_probable_prime 104729 k g = true) ∧
    (∀ (k : Nat) (g : Nat → Nat), 1 ≤ k → is_probable_prime 9 k g = false) ∧
    (∀ (k : Nat) (g : Nat → Nat),
      is_probable_prime 0 k g = false ∧ is_probable_prime 1 k g = false ∧
      is_probable_prime 4 k g = false ∧ is_probable_prime 100 k g = false) := by
  refine ⟨?_, ?_, ?_, ?_, ?_, ?_, ?_, ?_, ?_, ?_⟩
  · intro n k g h
    rw [is_probable_prime, if_pos h]
  · intro k g
    exact ⟨rfl, rfl⟩
  · intro n k g h3 hev
    rw [is_probable_prime, if_neg (by omega : ¬ n ≤ 1), if_neg (by omega : ¬ n = 2),
      if_neg (by omega : ¬ n = 3), if_pos hev]
  · intro n k g h5 hodd
    have hsplit := splitTwos_correct (n - 1) (n - 1) (by omega) (le_refl _)
    exact ⟨hsplit.1, hsplit.2, by
      rw [is_probable_prime_odd n k g h5 hodd]
      exact mrRounds_eq_true_iff n (splitTwos (n - 1) (n - 1)).2
        (splitTwos (n - 1) (n - 1)).1 k g⟩
  · intro n draw h5
    have hmod : draw % (n - 4) < n - 4 := Nat.mod_lt _ (by omega)
    constructor
    · simp [mrBase]
    · simp only [mrBase]
      omega
  · intro n b h5 hb2 hb3
    refine ⟨b - 2, ?_⟩
    simp only [mrBase]
    rw [Nat.mod_eq_of_lt (by omega : b - 2 < n - 4)]
    omega
  · intro k g
    exact is_probable_prime_of_prime 7 (by norm_num) k g
  · intro k g
    exact is_probable_prime_of_prime 104729 (by norm_num) k g
  · intro k g hk
    rcases k with _ | k
    · omega
    · rw [is_probable_prime_odd 9 (k + 1) g (by norm_num) (by norm_num)]
      have hsp : splitTwos (9 - 1) (9 - 1) = (3, 1) := by decide
      rw [hsp]
      simp only
      rw [mrRounds_succ]
      have hfail : mrRound 9 1 3 (mrBase 9 (g 0)) = false := by
        have hm : g 0 % 5 < 5 := Nat.mod_lt _ (by norm_num)
        have hbase : mrBase 9 (g 0) = 2 + g 0 % 5 := rfl
        rw [hbase]
        generalize g 0 % 5 = m at hm
        interval_cases m <;> decide
      rw [hfail]
      simp
  · intro k g
    refine ⟨?_, ?_, ?_, ?_⟩
    · rw [is_probable_prime, if_pos (by norm_num)]
    · rw [is_probable_prime, if_pos (by norm_num)]
    · rfl
    · rfl

/-- C3 counterexample: the claim says the bases are drawn from the inclusive
range `[2, n - 2]`, but `gen_biguint_range(&2, &(n - 2))` samples the
half-open range `[2, n - 2)`: for `n = 13` the base `n - 2 = 11` can never
be drawn. -/
theorem c3_counterexample : ¬ ∃ draw, mrBase 13 draw = 11 := by
  rintro ⟨d, hd⟩
  have hm : d % 9 < 9 := Nat.mod_lt _ (by norm_num)
  have : mrBase 13 d = 2 + d % 9 := rfl
  omega

theorem c3_witness :
    is_probable_prime 0 3 (fun _ => 0) = false ∧
    is_probable_prime 2 3 (fun _ => 0) = true ∧
    is_probable_prime 100 3 (fun _ => 0) = false ∧
    (2 ≤ mrBase 13 6 ∧ mrBase 13 6 ≤ 10) ∧
    (∃ draw, mrBase 13 draw = 7) ∧
    is_probable_prime 7 3 (fun _ => 1) = true ∧
    is_probable_prime 104729 2 (fun _ => 5) = true ∧
    is_probable_prime 9 1 (fun _ => 3) = false :=
  ⟨c3_is_probable_prime_behaviour.1 0 3 (fun _ => 0) (by omega),
   (c3_is_probable_prime_behaviour.2.1 3 (fun _ => 0)).1,
   c3_is_probable_prime_behaviour.2.2.1 100 3 (fun _ => 0) (by omega) (by omega),
   c3_is_probable_prime_behaviour.2.2.2.2.1 13 6 (by omega),
   c3_is_probable_prime_behaviour.2.2.2.2.2.1 13 7 (by omega) (by omega) (by omega),
   c3_is_probable_prime_behaviour.2.2.2.2.2.2.1 3 (fun _ => 1),
   c3_is_probable_prime_behaviour.2.2.2.2.2.2.2.1 2 (fun _ => 5),
   c3_is_probable_prime_behaviour.2.2.2.2.2.2.2.2.1 1 (fun _ => 3) (by omega)⟩

/-- C7: in `verify_proof_internal`, after all four fields decode, a decoded
`l` of bit length below 120 or one failing the 5-round probabilistic
primality test yields the `InvalidProofPrime` error; when those validations
pass but the equation `y = pi ^ l * x ^ r mod N` fails, the function returns
`Ok(false)` — a non-error outcome distinct from every error. -/
theorem c7_verify_prime_check_and_reject (N : Nat) (hash : String → Nat) (input : String)
    (pr : VDFProof) (g : Nat → Nat)
    (hrange : 1000 ≤ pr.iterations ∧ pr.iterations ≤ 10000000)
    (hy : pr.y ≠ []) (hpi : pr.pi ≠ []) (hl : pr.l ≠ []) (hr : pr.r ≠ []) :
    (bits (fromBytesBE pr.l) < 120 ∨ is_probable_prime (fromBytesBE pr.l) 5 g = false →
      verify_proof_internal N hash input pr g = .error "Invalid proof prime l") ∧
    (¬ (bits (fromBytesBE pr.l) < 120 ∨ is_probable_prime (fromBytesBE pr.l) 5 g = false) →
      fromBytesBE pr.y ≠ modPow (fromBytesBE pr.pi) (fromBytesBE pr.l) N *
        modPow (hash input) (fromBytesBE pr.r) N % N →
      verify_proof_internal N hash input pr g = .ok false) := by
  have hdy : base64_to_biguint pr.y = .ok (fromBytesBE pr.y) := by
    rw [base64_to_biguint, if_neg hy]
  have hdpi : base64_to_biguint pr.pi = .ok (fromBytesBE pr.pi) := by
    rw [base64_to_biguint, if_neg hpi]
  have hdl : base64_to_biguint pr.l = .ok (fromBytesBE pr.l) := by
    rw [base64_to_biguint, if_neg hl]
  have hdr : base64_to_biguint pr.r = .ok (fromBytesBE pr.r) := by
    rw [base64_to_biguint, if_neg hr]
  constructor
  · intro hbad
    rw [verify_proof_internal, if_neg (by omega)]
    simp only [hdy, hdpi, hdl, hdr]
    rw [if_pos hbad]
  · intro hgood hneq
    rw [verify_proof_internal, if_neg (by omega)]
    simp only [hdy, hdpi, hdl, hdr]
    rw [if_neg hgood]
    simp only [Except.ok.injEq]
    exact decide_eq_false hneq

/-- A concrete proof whose decoded `l = 4` has bit length 3 < 120. -/
def prBadL : VDFProof := ⟨[5], [1], [4], [1], 1000⟩

/-- A concrete proof with genuine 127-bit prime `l = 2 ^ 127 - 1` whose
verification equation fails (`y = 5` against a right side of 2). -/
def prReject : VDFProof := ⟨[5], [1], toBytesBE (2 ^ 127 - 1), [1], 1000⟩

set_option maxRecDepth 8000 in
theorem c7_witness :
    verify_proof_internal 97 (fun _ => 2) "x" prBadL (fun _ => 0) =
      .error "Invalid proof prime l" ∧
    verify_proof_internal 97 (fun _ => 2) "x" prReject (fun _ => 0) = .ok false :=
  ⟨(c7_verify_prime_check_and_reject 97 (fun _ => 2) "x" prBadL (fun _ => 0)
      (by decide) (by decide) (by decide) (by decide) (by decide)).1 (by decide),
   (c7_verify_prime_check_and_reject 97 (fun _ => 2) "x" prReject (fun _ => 0)
      (by decide) (by decide) (by decide) (by decide) (by decide)).2
      (by decide) (by decide)⟩

/-- C8: every value returned by `generate_prime(bits)` is odd, has bit
length exactly `bits` (top bit forced set, bottom bit forced set), and
passed a 20-round Miller-Rabin test at some attempt among the at most 1000;
and when every one of the 1000 candidates fails its test, the function
returns the exhaustion error rather than a value. -/
theorem c8_generate_prime (nbits : Nat) (hb : 1 ≤ nbits) (co : Nat → Nat)
    (bo : Nat → Nat → Nat) :
    (∀ p, generate_prime nbits co bo = .ok p →
      2 ^ (nbits - 1) ≤ p ∧ p < 2 ^ nbits ∧ p % 2 = 1 ∧
      ∃ j < 1000, p = primeCandidate nbits (co j) ∧
        is_probable_prime p 20 (bo j) = true) ∧
    ((∀ j < 1000, is_probable_prime (primeCandidate nbits (co j)) 20 (bo j) = false) →
      generate_prime nbits co bo = .error "Failed to generate prime") := by
  constructor
  · intro p hp
    obtain ⟨j, hj0, hj1000, hcand, hpass⟩ := genLoop_ok nbits co bo 1000 0 p hp
    refine ⟨?_, ?_, ?_, j, by omega, hcand, hpass⟩
    · rw [hcand]
      exact primeCandidate_ge nbits (co j)
    · rw [hcand]
      exact primeCandidate_lt nbits (co j) hb
    · rw [hcand]
      exact primeCandidate_odd nbits (co j)
  · intro hall
    exact genLoop_error nbits co bo 1000 0 (fun j hj0 hj1000 => hall j (by omega))

theorem c8_witness :
    (2 ^ (3 - 1) ≤ 5 ∧ 5 < 2 ^ 3 ∧ 5 % 2 = 1 ∧
      ∃ j < 1000, 5 = primeCandidate 3 ((fun _ => (0 : Nat)) j) ∧
        is_probable_prime 5 20 ((fun _ _ => (0 : Nat)) j) = true) ∧
    generate_prime 5 (fun _ => 4) (fun _ _ => 0) = .error "Failed to generate prime" :=
  ⟨(c8_generate_prime 3 (by omega) (fun _ => 0) (fun _ _ => 0)).1 5 rfl,
   (c8_generate_prime 5 (by omega) (fun _ => 4) (fun _ _ => 0)).2 (fun j _ => by decide)⟩

end VDF
